import Mathlib

/-!
Verification development for the bplustree repository.

The embedding follows the most complete revision of the source (the snapshot
with MIN_DEGREE = 3, the leaf previous and next chain, and the update and
delete stubs that report ErrNotImplemented).  Modelling conventions:

* Go slices are modelled as functional lists.
* Node pointers are indices into the node store of the tree state; the nil
  pointer and every out of range access are modelled by Option.none.
* The pluggable comparator is a function returning an Int, with the source
  constants OrderedAscending = -1, OrderedSame = 0, OrderedDescending = 1.
* The interface value slot of a leaf entry is a sum of V and Nat, because
  the Go code stores either a user payload or a promoted child pointer in
  the same interface typed slice.
* Recursion through parent pointers and loops over the node graph carry an
  explicit fuel argument; callers hand over more fuel than any parent chain
  in a store of that size can consume, so exhaustion only models divergence
  on malformed stores.  A returned none models a Go runtime fault
  (nil dereference, index out of range, failed type assertion).
-/

/-- Errors surfaced by the tree operations, mirroring the error values of the
source: ErrNotFound, ErrNotImplemented, and an error produced by the key
generator (the generator returns an arbitrary Go error, modelled by E). -/
inductive TreeErr (E : Type) where
  | notFound
  | notImplemented
  | genErr (e : E)
  deriving DecidableEq, Repr

/-- The treeNode struct of the source.  keys, values and children are the
three slices; parent, previous and next are the intrusive pointers, modelled
as optional indices into the node store. -/
structure Node (K V : Type) where
  internalID : Nat
  dirty : Bool
  leaf : Bool
  keys : List K
  values : List (V ⊕ Nat)
  children : List Nat
  parent : Option Nat
  previous : Option Nat
  next : Option Nat
  deriving DecidableEq, Repr

/-- The tree struct of the source: node counter, degree, root pointer, dirty
flag and the store holding every allocated node.  The key generator and the
comparator, stored in the Go struct, are passed as parameters to the
operations instead so that the state is first order data. -/
structure TreeState (K V : Type) where
  nodeCount : Nat
  degree : Nat
  root : Nat
  dirty : Bool
  nodes : List (Node K V)
  deriving DecidableEq, Repr

/-- Safe list indexing; stands for a Go slice read, with none for the index
out of range fault. -/
def nth : List α → Nat → Option α
  | [], _ => none
  | a :: _, 0 => some a
  | _ :: l, i + 1 => nth l i

/-- Insertion of an element at a position of a list.  This is the net effect
of the append, copy, overwrite idiom the source uses to insert into a slice
at an interior position. -/
def insertAt : Nat → α → List α → List α
  | 0, x, l => x :: l
  | _ + 1, x, [] => [x]
  | i + 1, x, a :: l => a :: insertAt i x l

/-- Index of the first element satisfying the predicate, none when there is
none.  This is the linear scan with break of the source, where none stands
for the sentinel value -1. -/
def findIdxA (p : α → Bool) : List α → Option Nat
  | [] => none
  | a :: l => if p a then some 0 else (findIdxA p l).map (· + 1)

/-- The slice update recordValue performs: append at the end when the scan
found no larger key (index -1), otherwise insert at the found position. -/
def rvInsert (i : Option Nat) (x : α) (l : List α) : List α :=
  match i with
  | none => l ++ [x]
  | some j => insertAt j x l

/-- The node newTreeNode builds: empty slices, the given leaf kind, the
dirty mark, and the internalID the counter reached. -/
def freshNode (K V : Type) (cnt : Nat) (leaf : Bool) : Node K V :=
  { internalID := cnt, dirty := true, leaf := leaf,
    keys := [], values := [], children := [],
    parent := none, previous := none, next := none }

/-- newTreeNode of the source: increments the node counter, allocates a node
with empty slices whose internalID is the new counter value, marks the node
and the tree dirty, and appends the node to the store.  Returns the new
state, the index of the node and the node itself. -/
def newTreeNode (σ : TreeState K V) (leaf : Bool) :
    TreeState K V × Nat × Node K V :=
  let n := freshNode K V (σ.nodeCount + 1) leaf
  ({ σ with nodeCount := σ.nodeCount + 1, dirty := true, nodes := σ.nodes ++ [n] },
   σ.nodes.length, n)

/-- NewBTree of the source: clamps the degree to the minimum of 3 and
allocates the initial leaf root. -/
def NewBTree (K V : Type) (degree : Nat) : TreeState K V :=
  let d := if degree < 3 then 3 else degree
  let σ0 : TreeState K V :=
    { nodeCount := 0, degree := d, root := 0, dirty := false, nodes := [] }
  let r := newTreeNode σ0 true
  { r.1 with root := r.2.1 }

/-- The candidate child selection loop of findNodeForKey: scan the keys of an
internal node from the left; as soon as the search key compares ascending to
a node key take the child at that index, otherwise remember the child one to
the right and continue.  The source reads children at idx + 1 on every
iteration that does not break, so an out of range read faults even when a
later iteration would have broken. -/
def chooseChild (cmp : K → K → Int) (key : K) (children : List Nat) :
    List K → Nat → Option Nat
  | [], _ => none
  | k :: rest, idx =>
    if cmp key k == -1 then nth children idx
    else
      match nth children (idx + 1) with
      | none => none
      | some c =>
        match rest with
        | [] => some c
        | _ :: _ => chooseChild cmp key children rest (idx + 1)

/-- The descent loop of findNodeForKey. -/
def findNode (cmp : K → K → Int) (σ : TreeState K V) (key : K) :
    Nat → Nat → Option Nat
  | 0, _ => none
  | fuel + 1, nid =>
    match nth σ.nodes nid with
    | none => none
    | some n =>
      if n.leaf then some nid
      else
        match chooseChild cmp key n.children n.keys 0 with
        | none => none
        | some c => findNode cmp σ key fuel c

/-- findNodeForKey of the source: descend from the root to a leaf. -/
def findNodeForKey (cmp : K → K → Int) (σ : TreeState K V) (key : K) :
    Option Nat :=
  findNode cmp σ key (σ.nodes.length + 1) σ.root

/-- The recording part of recordValue of the source, without the final
splitNode call: find the insertion position by a linear scan, insert the key
there, and insert the payload into values for a leaf or, after the type
assertion to a node pointer, into children for an internal node.  A payload
that is not a node pointer recorded into an internal node models the failed
type assertion and faults. -/
def recordEntry (cmp : K → K → Int) (σ : TreeState K V) (key : K)
    (val : V ⊕ Nat) (nid : Nat) : Option (TreeState K V) :=
  match nth σ.nodes nid with
  | none => none
  | some n =>
    let ins := findIdxA (fun k => cmp key k == -1) n.keys
    let keys1 := rvInsert ins key n.keys
    if n.leaf then
      some { σ with
        nodes := σ.nodes.set nid { n with keys := keys1,
                                          values := rvInsert ins val n.values } }
    else
      match val with
      | Sum.inl _ => none
      | Sum.inr cid =>
        some { σ with
          nodes := σ.nodes.set nid { n with keys := keys1,
                                            children := rvInsert ins cid n.children } }

/-- splitNode of the source.  A leaf overflows above degree - 1 keys, an
internal node above degree keys.  The split point is degree / 2 for a leaf
and degree / 2 + degree % 2 for an internal node.  The sibling receives the
keys and the values or children from the split point onward, the node keeps
the prefix; a split leaf links the sibling after itself in the leaf chain.
A split root is replaced by a new internal root holding the first sibling
key and both nodes as children; otherwise the first sibling key and the
sibling are recorded into the parent, which may split in turn. -/
def splitNode (cmp : K → K → Int) :
    Nat → TreeState K V → Nat → Option (TreeState K V)
  | 0, _, _ => none
  | fuel + 1, σ, nid =>
    match nth σ.nodes nid with
    | none => none
    | some n =>
      let thresh := if n.leaf then σ.degree - 1 else σ.degree
      if n.keys.length ≤ thresh then some σ
      else
        let sp := if n.leaf then σ.degree / 2 else σ.degree / 2 + σ.degree % 2
        let alloc := newTreeNode σ n.leaf
        let σ1 := alloc.1
        let sid := alloc.2.1
        let fresh := alloc.2.2
        let sib :=
          if n.leaf then
            { fresh with keys := n.keys.drop sp, values := n.values.drop sp,
                         previous := some nid }
          else
            { fresh with keys := n.keys.drop sp, children := n.children.drop sp }
        let nTrunc :=
          if n.leaf then
            { n with keys := n.keys.take sp, values := n.values.take sp,
                     next := some sid }
          else
            { n with keys := n.keys.take sp, children := n.children.take sp }
        let σ2 := { σ1 with nodes := (σ1.nodes.set sid sib).set nid nTrunc }
        match (n.keys.drop sp).head? with
        | none => none
        | some pk =>
          match n.parent with
          | none =>
            let alloc2 := newTreeNode σ2 false
            let σ3 := alloc2.1
            let rid := alloc2.2.1
            let rootNode := { alloc2.2.2 with keys := [pk], children := [nid, sid] }
            let n2 : Node K V := { nTrunc with parent := some rid }
            let s2 : Node K V := { sib with parent := some rid }
            some { σ3 with root := rid,
                           nodes := ((σ3.nodes.set rid rootNode).set nid n2).set sid s2 }
          | some pid =>
            let σ3 := { σ2 with nodes := σ2.nodes.set sid { sib with parent := some pid } }
            match recordEntry cmp σ3 pk (Sum.inr sid) pid with
            | none => none
            | some σ4 => splitNode cmp fuel σ4 pid

/-- recordValue of the source: record the entry into the node, then run the
overflow check and split. -/
def recordValue (cmp : K → K → Int) (fuel : Nat) (σ : TreeState K V)
    (key : K) (val : V ⊕ Nat) (nid : Nat) : Option (TreeState K V) :=
  match recordEntry cmp σ key val nid with
  | none => none
  | some σ1 => splitNode cmp fuel σ1 nid

/-- The insert operation of the source: derive the key with the generator;
a generator error is returned with a nil key and nothing is touched.
Otherwise descend to the leaf for the key and record the value there. -/
def insertOp (cmp : K → K → Int) (gen : TreeState K V → V → Except E K)
    (σ : TreeState K V) (v : V) :
    Option (TreeState K V × Option K × Option (TreeErr E)) :=
  match gen σ v with
  | Except.error e => some (σ, none, some (TreeErr.genErr e))
  | Except.ok key =>
    match findNodeForKey cmp σ key with
    | none => none
    | some nid =>
      match recordValue cmp (σ.nodes.length + 2) σ key (Sum.inl v) nid with
      | none => none
      | some σ1 => some (σ1, some key, none)

/-- The scan of the search operation over the keys of the reached leaf:
the first key comparing same yields the aligned value, otherwise the result
is the ErrNotFound outcome, modelled as some none. -/
def leafLookup (cmp : K → K → Int) (key : K) (n : Node K V) :
    Option (Option (V ⊕ Nat)) :=
  match findIdxA (fun k => cmp key k == 0) n.keys with
  | none => some none
  | some i =>
    match nth n.values i with
    | none => none
    | some v => some (some v)

/-- The search operation of the source: descend to the leaf for the key and
scan it.  The outer none models a runtime fault during the descent, some
none the ErrNotFound result, and some (some v) a found value. -/
def searchOp (cmp : K → K → Int) (σ : TreeState K V) (key : K) :
    Option (Option (V ⊕ Nat)) :=
  match findNodeForKey cmp σ key with
  | none => none
  | some nid =>
    match nth σ.nodes nid with
    | none => none
    | some n => leafLookup cmp key n

/-- The update stub of the source: it only sends ErrNotImplemented back and
does not touch the tree. -/
def updateOp (σ : TreeState K V) (_key : K) (_val : V) :
    TreeState K V × TreeErr E :=
  (σ, TreeErr.notImplemented)

/-- The delete stub of the source: it only sends ErrNotImplemented back and
does not touch the tree. -/
def deleteOp (σ : TreeState K V) (_key : K) : TreeState K V × TreeErr E :=
  (σ, TreeErr.notImplemented)

/-- NodeCount of the source. -/
def NodeCountOp (σ : TreeState K V) : Nat := σ.nodeCount

/-- The comparator the tests of the source use on unsigned integer keys. -/
def natCmp (a b : Nat) : Int :=
  if a < b then -1 else if b < a then 1 else 0

/-- A key generator that uses the inserted value itself as the key. -/
def genId : TreeState Nat Nat → Nat → Except Nat Nat :=
  fun _ v => Except.ok v

/-- A key generator that derives the key by dividing the value by ten, so
distinct values can generate equal keys. -/
def genDiv : TreeState Nat Nat → Nat → Except Nat Nat :=
  fun _ v => Except.ok (v / 10)

/-- A key generator that always fails. -/
def genFail : TreeState Nat Nat → Nat → Except Nat Nat :=
  fun _ _ => Except.error 7

/-- Run a sequence of inserts with a generator, stopping at the first insert
that faults or reports an error. -/
def insertManyWith (gen : TreeState Nat Nat → Nat → Except Nat Nat) :
    TreeState Nat Nat → List Nat → Option (TreeState Nat Nat)
  | σ, [] => some σ
  | σ, v :: vs =>
    match insertOp natCmp gen σ v with
    | some (σ1, some _, none) => insertManyWith gen σ1 vs
    | _ => none

/-- Run a sequence of inserts whose keys equal the inserted values. -/
def insertMany (σ : TreeState Nat Nat) (vs : List Nat) :
    Option (TreeState Nat Nat) :=
  insertManyWith genId σ vs

/-- Descend along first children to the structurally leftmost leaf. -/
def leftmostFrom (σ : TreeState K V) : Nat → Nat → Option Nat
  | 0, _ => none
  | fuel + 1, nid =>
    match nth σ.nodes nid with
    | none => none
    | some n =>
      if n.leaf then some nid
      else
        match nth n.children 0 with
        | none => none
        | some c => leftmostFrom σ fuel c

/-- The structurally leftmost leaf of the tree. -/
def leftmostLeaf (σ : TreeState K V) : Option Nat :=
  leftmostFrom σ (σ.nodes.length + 1) σ.root

/-- Follow the next pointers of the leaf chain, collecting node indices. -/
def chainFrom (σ : TreeState K V) : Nat → Nat → Option (List Nat)
  | 0, _ => none
  | fuel + 1, nid =>
    match nth σ.nodes nid with
    | none => none
    | some n =>
      match n.next with
      | none => some [nid]
      | some m =>
        match chainFrom σ fuel m with
        | none => none
        | some rest => some (nid :: rest)

/-- All keys of the leaf chain read from the structurally leftmost leaf. -/
def chainKeys (σ : TreeState K V) : Option (List K) :=
  match leftmostLeaf σ with
  | none => none
  | some s =>
    match chainFrom σ (σ.nodes.length + 1) s with
    | none => none
    | some ids =>
      some (List.flatten (ids.map fun i =>
        match nth σ.nodes i with
        | none => []
        | some n => n.keys))

/-- The sibling node a split of node n at position sp builds, before any
parent pointer is assigned: same kind as n, the dropped suffix of the keys,
and of the values or children respectively; a leaf sibling points back at
the split node. -/
def sibNode (σ : TreeState K V) (n : Node K V) (nid sp : Nat) : Node K V :=
  if n.leaf then
    { freshNode K V (σ.nodeCount + 1) n.leaf with
        keys := n.keys.drop sp, values := n.values.drop sp, previous := some nid }
  else
    { freshNode K V (σ.nodeCount + 1) n.leaf with
        keys := n.keys.drop sp, children := n.children.drop sp }

/-- The truncation of the split node to the prefix before sp; a split leaf
gains the sibling at index sid as its next leaf. -/
def truncNode (n : Node K V) (sid sp : Nat) : Node K V :=
  if n.leaf then
    { n with keys := n.keys.take sp, values := n.values.take sp, next := some sid }
  else
    { n with keys := n.keys.take sp, children := n.children.take sp }

/-- Side conditions on the parent of a node about to split, under which the
recursive promotion into the parent records one entry there and stops: the
parent is a different, existing, internal node with room for one more key.
A root (no parent) needs no conditions. -/
def SplitParentOk (σ : TreeState K V) (nid : Nat) (n : Node K V) : Prop :=
  match n.parent with
  | none => True
  | some pid =>
    pid ≠ nid ∧ ∃ pn, nth σ.nodes pid = some pn ∧ pn.leaf = false ∧
      pn.keys.length + 1 ≤ σ.degree

/-! ### Helper lemmas about the list primitives -/

theorem nth_some_lt {l : List α} {i : Nat} {a : α} (h : nth l i = some a) :
    i < l.length := by
  induction l generalizing i with
  | nil => simp [nth] at h
  | cons b t ih =>
    cases i with
    | zero => simp
    | succ j =>
      simp only [nth] at h
      have := ih h
      simpa using Nat.succ_lt_succ this

theorem nth_eq_get {l : List α} {i : Nat} (h : i < l.length) :
    nth l i = some (l.get ⟨i, h⟩) := by
  induction l generalizing i with
  | nil => simp at h
  | cons b t ih =>
    cases i with
    | zero => rfl
    | succ j => exact ih (Nat.lt_of_succ_lt_succ (by simpa using h))

theorem nth_set_self {l : List α} {i : Nat} (x : α) (h : i < l.length) :
    nth (l.set i x) i = some x := by
  induction l generalizing i with
  | nil => simp at h
  | cons b t ih =>
    cases i with
    | zero => rfl
    | succ j => exact ih (Nat.lt_of_succ_lt_succ (by simpa using h))

theorem nth_set_ne {l : List α} {i j : Nat} (x : α) (h : i ≠ j) :
    nth (l.set i x) j = nth l j := by
  induction l generalizing i j with
  | nil => simp [List.set]
  | cons b t ih =>
    cases i with
    | zero =>
      cases j with
      | zero => exact absurd rfl h
      | succ m => rfl
    | succ i' =>
      cases j with
      | zero => rfl
      | succ m => exact ih (fun hc => h (by rw [hc]))

theorem nth_append_left {l l2 : List α} {j : Nat} (h : j < l.length) :
    nth (l ++ l2) j = nth l j := by
  induction l generalizing j with
  | nil => simp at h
  | cons b t ih =>
    cases j with
    | zero => rfl
    | succ m => exact ih (Nat.lt_of_succ_lt_succ (by simpa using h))

theorem nth_append_length {l l2 : List α} (x : α) :
    nth (l ++ x :: l2) l.length = some x := by
  induction l with
  | nil => rfl
  | cons b t ih => exact ih

theorem head?_drop (l : List α) (i : Nat) : (l.drop i).head? = nth l i := by
  induction l generalizing i with
  | nil => cases i <;> rfl
  | cons b t ih =>
    cases i with
    | zero => rfl
    | succ j => exact ih j

theorem length_insertAt {l : List α} {i : Nat} (x : α) (h : i ≤ l.length) :
    (insertAt i x l).length = l.length + 1 := by
  induction l generalizing i with
  | nil =>
    cases i with
    | zero => rfl
    | succ j => simp at h
  | cons b t ih =>
    cases i with
    | zero => rfl
    | succ j =>
      have := ih (Nat.le_of_succ_le_succ (by simpa using h))
      simp only [insertAt, List.length_cons, this]

theorem insertAt_length_append (x : α) (l : List α) :
    insertAt l.length x l = l ++ [x] := by
  induction l with
  | nil => rfl
  | cons b t ih => simp only [List.length_cons, insertAt, ih, List.cons_append]

theorem insertAt_perm (i : Nat) (x : α) (l : List α) :
    List.Perm (insertAt i x l) (x :: l) := by
  induction l generalizing i with
  | nil => cases i <;> exact List.Perm.refl _
  | cons a t ih =>
    cases i with
    | zero => exact List.Perm.refl _
    | succ j =>
      exact (List.Perm.cons a (ih j)).trans (List.Perm.swap x a t)

theorem nth_insertAt_lt {l : List α} {i m : Nat} (x : α) (hm : m < i)
    (hi : i ≤ l.length) : nth (insertAt i x l) m = nth l m := by
  induction l generalizing i m with
  | nil => simp at hi; omega
  | cons b t ih =>
    cases i with
    | zero => omega
    | succ j =>
      cases m with
      | zero => rfl
      | succ m' =>
        exact ih (Nat.lt_of_succ_lt_succ hm)
          (Nat.le_of_succ_le_succ (by simpa using hi))

theorem rvInsert_perm (i : Option Nat) (x : α) (l : List α) :
    List.Perm (rvInsert i x l) (x :: l) := by
  cases i with
  | none => exact List.perm_append_singleton x l
  | some j => exact insertAt_perm j x l

theorem findIdxA_some_nth {p : α → Bool} {l : List α} {i : Nat}
    (h : findIdxA p l = some i) :
    (∃ a, nth l i = some a ∧ p a = true) ∧
    (∀ m, m < i → ∀ b, nth l m = some b → p b = false) := by
  induction l generalizing i with
  | nil => simp [findIdxA] at h
  | cons a t ih =>
    simp only [findIdxA] at h
    by_cases hp : p a
    · rw [if_pos hp] at h
      cases h
      exact ⟨⟨a, rfl, hp⟩, fun m hm => by omega⟩
    · rw [if_neg hp] at h
      cases hfi : findIdxA p t with
      | none => rw [hfi] at h; simp at h
      | some j =>
        rw [hfi] at h
        simp only [Option.map_some'] at h
        cases h
        obtain ⟨h1, h2⟩ := ih hfi
        refine ⟨h1, fun m hm b hb => ?_⟩
        cases m with
        | zero =>
          cases hb
          exact Bool.eq_false_iff.mpr hp
        | succ m' => exact h2 m' (Nat.lt_of_succ_lt_succ hm) b hb

theorem findIdxA_none_nth {p : α → Bool} {l : List α}
    (h : findIdxA p l = none) :
    ∀ m b, nth l m = some b → p b = false := by
  induction l with
  | nil => intro m b hb; simp [nth] at hb
  | cons a t ih =>
    intro m b hb
    simp only [findIdxA] at h
    by_cases hp : p a
    · rw [if_pos hp] at h; cases h
    · rw [if_neg hp] at h
      cases m with
      | zero => cases hb; exact Bool.eq_false_iff.mpr hp
      | succ m' =>
        cases hfi : findIdxA p t with
        | none => exact ih hfi m' b hb
        | some j => rw [hfi] at h; simp at h

theorem findIdxA_first {p : α → Bool} {l : List α} {j : Nat} (b : α)
    (hnth : nth l j = some b) (hb : p b = true)
    (hlow : ∀ m, m < j → ∀ c, nth l m = some c → p c = false) :
    findIdxA p l = some j := by
  induction l generalizing j with
  | nil => simp [nth] at hnth
  | cons a t ih =>
    cases j with
    | zero =>
      cases hnth
      simp [findIdxA, hb]
    | succ j' =>
      have ha : p a = false := hlow 0 (Nat.succ_pos j') a rfl
      simp only [findIdxA, ha, Bool.false_eq_true, if_false]
      rw [ih hnth (fun m hm c hc => hlow (m + 1) (Nat.succ_lt_succ hm) c hc)]
      rfl

theorem length_rvInsert_findIdxA (p : α → Bool) (x : α) (l : List α) :
    (rvInsert (findIdxA p l) x l).length = l.length + 1 := by
  cases hfi : findIdxA p l with
  | none => simp [rvInsert]
  | some j =>
    obtain ⟨⟨a, ha, _⟩, _⟩ := findIdxA_some_nth hfi
    exact length_insertAt x (Nat.le_of_lt (nth_some_lt ha))

theorem rvInsert_eq_insertAt (p : α → Bool) (x : α) (l : List α) :
    rvInsert (findIdxA p l) x l =
      insertAt ((findIdxA p l).getD l.length) x l := by
  cases hfi : findIdxA p l with
  | none => simp [rvInsert, insertAt_length_append]
  | some j => rfl

theorem pairwise_take_drop {R : α → α → Prop} {l : List α}
    (h : l.Pairwise R) (sp : Nat) :
    ∀ a ∈ l.take sp, ∀ b ∈ l.drop sp, R a b := by
  rw [← List.take_append_drop sp l] at h
  exact (List.pairwise_append.mp h).2.2

/-! ### Evaluation lemmas for splitNode -/

theorem splitNode_root_eq
    (cmp : K → K → Int) (fuel : Nat) (σ : TreeState K V) (nid : Nat)
    (n : Node K V) (sp : Nat) (pk : K)
    (hget : nth σ.nodes nid = some n)
    (hover : (if n.leaf then σ.degree - 1 else σ.degree) < n.keys.length)
    (hsp : sp = if n.leaf then σ.degree / 2 else σ.degree / 2 + σ.degree % 2)
    (hpk : (n.keys.drop sp).head? = some pk)
    (hroot : n.parent = none) :
    splitNode cmp (fuel + 1) σ nid = some
      { nodeCount := σ.nodeCount + 2, degree := σ.degree,
        root := σ.nodes.length + 1, dirty := true,
        nodes :=
          ((((((σ.nodes ++ [freshNode K V (σ.nodeCount + 1) n.leaf]).set
                σ.nodes.length (sibNode σ n nid sp)).set
                nid (truncNode n σ.nodes.length sp)) ++
                [freshNode K V (σ.nodeCount + 2) false]).set
              (σ.nodes.length + 1)
              { freshNode K V (σ.nodeCount + 2) false with
                  keys := [pk], children := [nid, σ.nodes.length] }).set
            nid { truncNode n σ.nodes.length sp with
                    parent := some (σ.nodes.length + 1) }).set
          σ.nodes.length
          { sibNode σ n nid sp with parent := some (σ.nodes.length + 1) } } := by
  subst hsp
  have hnle := Nat.not_le.mpr hover
  simp only [splitNode, hget, newTreeNode, hpk, hroot, hnle, if_false,
    sibNode, truncNode, freshNode, List.length_set, List.length_append,
    List.length_cons, List.length_nil]

theorem splitNode_noover_eq
    (cmp : K → K → Int) (fuel : Nat) (σ : TreeState K V) (nid : Nat)
    (n : Node K V)
    (hget : nth σ.nodes nid = some n)
    (hle : n.keys.length ≤ if n.leaf then σ.degree - 1 else σ.degree) :
    splitNode cmp (fuel + 1) σ nid = some σ := by
  simp only [splitNode, hget, if_pos hle]

theorem recordEntry_internal_eq
    (cmp : K → K → Int) (σ : TreeState K V) (pid : Nat) (pn : Node K V)
    (key : K) (cid : Nat)
    (hpn : nth σ.nodes pid = some pn)
    (hpleaf : pn.leaf = false) :
    recordEntry cmp σ key (Sum.inr cid) pid = some
      { σ with nodes := σ.nodes.set pid ({ pn with
          keys := rvInsert (findIdxA (fun k => cmp key k == -1) pn.keys)
                    key pn.keys,
          children := rvInsert (findIdxA (fun k => cmp key k == -1) pn.keys)
                    cid pn.children }) } := by
  simp only [recordEntry, hpn, hpleaf, Bool.false_eq_true, if_false]

theorem nth_threeSets {A : List α} {pid nid : Nat} (f x y z : α)
    (hne : nid ≠ pid) (hlt : pid < A.length) :
    nth ((((A ++ [f]).set A.length x).set nid y).set A.length z) pid =
      nth A pid := by
  rw [nth_set_ne _ (by omega), nth_set_ne _ hne, nth_set_ne _ (by omega),
    nth_append_left hlt]

theorem splitNode_parent_eq
    (cmp : K → K → Int) (fuel : Nat) (σ : TreeState K V) (nid : Nat)
    (n : Node K V) (sp : Nat) (pk : K) (pid : Nat) (pn : Node K V)
    (hget : nth σ.nodes nid = some n)
    (hover : (if n.leaf then σ.degree - 1 else σ.degree) < n.keys.length)
    (hsp : sp = if n.leaf then σ.degree / 2 else σ.degree / 2 + σ.degree % 2)
    (hpk : (n.keys.drop sp).head? = some pk)
    (hpar : n.parent = some pid)
    (hpn : nth σ.nodes pid = some pn)
    (hne : pid ≠ nid)
    (hpleaf : pn.leaf = false)
    (hroom : pn.keys.length + 1 ≤ σ.degree) :
    splitNode cmp (fuel + 2) σ nid = some
      { nodeCount := σ.nodeCount + 1, degree := σ.degree,
        root := σ.root, dirty := true,
        nodes :=
          (((((σ.nodes ++ [freshNode K V (σ.nodeCount + 1) n.leaf]).set
                σ.nodes.length (sibNode σ n nid sp)).set
                nid (truncNode n σ.nodes.length sp)).set
              σ.nodes.length
              ({ sibNode σ n nid sp with parent := some pid })).set
            pid
            ({ pn with
                keys := rvInsert (findIdxA (fun k => cmp pk k == -1) pn.keys)
                          pk pn.keys,
                children := rvInsert (findIdxA (fun k => cmp pk k == -1) pn.keys)
                          σ.nodes.length pn.children })) } := by
  subst hsp
  have hnle := Nat.not_le.mpr hover
  have hlt := nth_some_lt hpn
  simp only [splitNode, hget, newTreeNode, hpk, hpar, hnle, if_false]
  rw [recordEntry_internal_eq cmp _ pid pn pk _
    ((nth_threeSets _ _ _ _ hne.symm hlt).trans hpn) hpleaf]
  have hnewlen :
      (rvInsert (findIdxA (fun k => cmp pk k == -1) pn.keys) pk pn.keys).length
        = pn.keys.length + 1 :=
    length_rvInsert_findIdxA _ _ _
  refine (splitNode_noover_eq cmp fuel _ pid ({ pn with
      keys := rvInsert (findIdxA (fun k => cmp pk k == -1) pn.keys) pk pn.keys,
      children := rvInsert (findIdxA (fun k => cmp pk k == -1) pn.keys)
                    σ.nodes.length pn.children }) ?_ ?_).trans ?_
  · dsimp only
    exact nth_set_self _ (by
      simp only [List.length_set, List.length_append, List.length_cons,
        List.length_nil]
      omega)
  · dsimp only
    simp only [hpleaf, Bool.false_eq_true, if_false, hnewlen]
    omega
  · simp only [sibNode, truncNode, freshNode, hpar]

/-! ### Node count bookkeeping -/

theorem recordEntry_nodeCount {cmp : K → K → Int} {σ σ1 : TreeState K V}
    {key : K} {val : V ⊕ Nat} {nid : Nat}
    (h : recordEntry cmp σ key val nid = some σ1) :
    σ1.nodeCount = σ.nodeCount := by
  simp only [recordEntry] at h
  split at h
  · simp at h
  · split at h
    · injection h with h2
      subst h2
      rfl
    · split at h
      · simp at h
      · injection h with h2
        subst h2
        rfl

theorem splitNode_nodeCount_mono {cmp : K → K → Int} :
    ∀ (fuel : Nat) (σ σ1 : TreeState K V) (nid : Nat),
      splitNode cmp fuel σ nid = some σ1 → σ.nodeCount ≤ σ1.nodeCount := by
  intro fuel
  induction fuel with
  | zero =>
    intro σ σ1 nid h
    simp [splitNode] at h
  | succ f ih =>
    intro σ σ1 nid h
    simp only [splitNode] at h
    repeat' split at h
    all_goals try exact Option.noConfusion h
    all_goals try (injection h with h2; subst h2; (try dsimp only [newTreeNode]); omega)
    all_goals
      rename_i σ4 heq
      have h1 := recordEntry_nodeCount heq
      have h2 := ih _ _ _ h
      dsimp only [newTreeNode] at h1
      omega

theorem recordValue_nodeCount_mono {cmp : K → K → Int} {fuel : Nat}
    {σ σ1 : TreeState K V} {key : K} {val : V ⊕ Nat} {nid : Nat}
    (h : recordValue cmp fuel σ key val nid = some σ1) :
    σ.nodeCount ≤ σ1.nodeCount := by
  simp only [recordValue] at h
  split at h
  · simp at h
  · rename_i σ2 heq
    have h1 := recordEntry_nodeCount heq
    have h2 := splitNode_nodeCount_mono fuel σ2 σ1 nid h
    omega

theorem insertOp_nodeCount_mono {cmp : K → K → Int}
    {gen : TreeState K V → V → Except E K} {σ σ1 : TreeState K V} {v : V}
    {k : Option K} {e : Option (TreeErr E)}
    (h : insertOp cmp gen σ v = some (σ1, k, e)) :
    σ.nodeCount ≤ σ1.nodeCount := by
  simp only [insertOp] at h
  split at h
  · injection h with h2
    cases h2
    exact Nat.le_refl _
  · split at h
    · simp at h
    · split at h
      · simp at h
      · rename_i σ2 heq
        injection h with h2
        cases h2
        exact recordValue_nodeCount_mono heq


/-! ### Claim theorems -/

/-- C1: the claim states that after any sequence of inserts with pairwise
distinct generated keys, a search for each inserted key returns its value.
The code violates this: with degree 3, inserting the six distinct ascending
keys 1 to 6 drives a root split of an internal node, after which the left
internal node holds two keys but only two children; the subsequent search
for the inserted key 3 then reads the child at index 2 of a two element
child slice, an index out of range fault (modelled by none) instead of
returning the value inserted with key 3. -/
theorem C1_search_after_inserts_faults :
    ([1, 2, 3, 4, 5, 6] : List Nat).Pairwise (· ≠ ·) ∧
    (insertMany (NewBTree Nat Nat 3) [1, 2, 3, 4, 5, 6]).map
      (fun σ => searchOp natCmp σ 3) = some none := by
  exact ⟨by decide, rfl⟩

/-- C2: the claim states that after every completed insertion each internal
node satisfies children length = keys length + 1 (and the key count bounds).
The code violates the child count alignment: after the six distinct inserts
1 to 6 at degree 3 the old root (node index 2) is an internal node with two
keys and two children instead of three. -/
theorem C2_internal_child_count_violated :
    (insertMany (NewBTree Nat Nat 3) [1, 2, 3, 4, 5, 6]).map
      (fun σ => (nth σ.nodes 2).map
        (fun n => (n.leaf, n.keys.length, n.children.length))) =
      some (some (false, 2, 2)) ∧ (2 : Nat) ≠ 2 + 1 := by
  exact ⟨rfl, by decide⟩

/-- C5: the claim states that a split leaf relinks its former successor
after the new sibling and that the leaf chain from the leftmost leaf yields
all keys in ascending order.  The code never assigns the next pointer of the
sibling, so the former successor is dropped from the chain: with degree 3
and inserts keyed 10, 20, 30, 12, 14, the leaf holding [10] splits; after
the split its new sibling [12, 14] has no next leaf even though the leaf
[20, 30] (previous pointer still at node 0) exists, and the chain read from
the leftmost leaf yields only [12, 14], missing keys 10, 20 and 30. -/
theorem C5_leaf_chain_broken :
    (insertMany (NewBTree Nat Nat 3) [10, 20, 30, 12, 14]).map
      (fun σ =>
        (chainKeys σ,
         (nth σ.nodes 0).map (fun n => (n.keys, n.next)),
         (nth σ.nodes 1).map (fun n => (n.keys, n.previous, n.next)),
         (nth σ.nodes 3).map (fun n => (n.keys, n.previous, n.next)))) =
      some (some [12, 14],
            some ([10], some 3),
            some ([20, 30], some 0, none),
            some ([12, 14], some 0, none)) := by
  rfl

/-- C6 counterexample: the claim states that a duplicate key is inserted
immediately before the first equal key, so that a search finds the most
recently inserted value.  With degree 3 and the generator that maps values
51 and 52 both to key 5, the leaf ends up with values [51, 52] in insertion
order, and the search for key 5 returns 51, the first inserted value, not
the most recent 52. -/
theorem C6_duplicate_counterexample :
    (insertManyWith genDiv (NewBTree Nat Nat 3) [51, 52]).map
      (fun σ => ((nth σ.nodes 0).map (fun n => (n.keys, n.values)),
                 searchOp natCmp σ 5)) =
      some (some ([5, 5], [Sum.inl 51, Sum.inl 52]), some (some (Sum.inl 51))) ∧
    (Sum.inl 51 : Nat ⊕ Nat) ≠ Sum.inl 52 := by
  exact ⟨rfl, by decide⟩

/-- C7: Update and Delete always return the NotImplemented error, allocate
no nodes, leave NodeCount unchanged, and leave every stored key and value
unchanged; the returned state is the input state itself. -/
theorem C7_update_delete_stubs (σ : TreeState K V) (k : K) (v : V) :
    (updateOp σ k v : TreeState K V × TreeErr E) = (σ, TreeErr.notImplemented) ∧
    (deleteOp σ k : TreeState K V × TreeErr E) = (σ, TreeErr.notImplemented) ∧
    NodeCountOp (updateOp σ k v : TreeState K V × TreeErr E).1 = NodeCountOp σ ∧
    NodeCountOp (deleteOp σ k : TreeState K V × TreeErr E).1 = NodeCountOp σ ∧
    (updateOp σ k v : TreeState K V × TreeErr E).1.nodes = σ.nodes ∧
    (deleteOp σ k : TreeState K V × TreeErr E).1.nodes = σ.nodes :=
  ⟨rfl, rfl, rfl, rfl, rfl, rfl⟩

/-- C9: tree construction clamps the degree to a minimum of 3: for every
requested degree below 3 the constructed tree is the very state constructed
with degree 3, and its stored branching factor is 3. -/
theorem C9_degree_clamped (K V : Type) (d : Nat) (h : d < 3) :
    NewBTree K V d = NewBTree K V 3 ∧ (NewBTree K V d).degree = 3 := by
  constructor
  · simp [NewBTree, if_pos h]
  · simp [NewBTree, newTreeNode, if_pos h]

/-- C9 witness at the concrete requested degree 2. -/
theorem C9_degree_clamped_witness :
    (2 : Nat) < 3 ∧
    (NewBTree Nat Nat 2 = NewBTree Nat Nat 3 ∧ (NewBTree Nat Nat 2).degree = 3) :=
  ⟨by decide, C9_degree_clamped Nat Nat 2 (by decide)⟩

/-- C10: when the key generator reports an error for the inserted value,
insert returns exactly that error with no key, and the tree state is
returned unchanged, so no node is allocated, nothing is recorded, and
NodeCount is unchanged. -/
theorem C10_keygen_error_no_mutation (cmp : K → K → Int)
    (gen : TreeState K V → V → Except E K) (σ : TreeState K V) (v : V) (e : E)
    (h : gen σ v = Except.error e) :
    insertOp cmp gen σ v = some (σ, none, some (TreeErr.genErr e)) := by
  simp [insertOp, h]

/-- C10 witness with the always failing generator on a fresh tree. -/
theorem C10_keygen_error_witness :
    genFail (NewBTree Nat Nat 3) 9 = Except.error 7 ∧
    insertOp natCmp genFail (NewBTree Nat Nat 3) 9 =
      some (NewBTree Nat Nat 3, none, some (TreeErr.genErr 7)) :=
  ⟨rfl, C10_keygen_error_no_mutation natCmp genFail (NewBTree Nat Nat 3) 9 7 rfl⟩

/-- C8: NodeCount is 1 immediately after construction, each node allocation
increments it by exactly 1, a successful insert never decreases it, and the
update and delete stubs leave it unchanged. -/
theorem C8_node_count_monotone (cmp : K → K → Int)
    (gen : TreeState K V → V → Except E K) :
    (∀ d : Nat, NodeCountOp (NewBTree K V d) = 1) ∧
    (∀ (σ : TreeState K V) (b : Bool),
      NodeCountOp (newTreeNode σ b).1 = NodeCountOp σ + 1) ∧
    (∀ (σ σ1 : TreeState K V) (v : V) (k : Option K) (e : Option (TreeErr E)),
      insertOp cmp gen σ v = some (σ1, k, e) → NodeCountOp σ ≤ NodeCountOp σ1) ∧
    (∀ (σ : TreeState K V) (k : K) (v : V),
      NodeCountOp (updateOp σ k v : TreeState K V × TreeErr E).1 = NodeCountOp σ) ∧
    (∀ (σ : TreeState K V) (k : K),
      NodeCountOp (deleteOp σ k : TreeState K V × TreeErr E).1 = NodeCountOp σ) := by
  refine ⟨fun d => rfl, fun σ b => rfl, ?_, fun σ k v => rfl, fun σ k => rfl⟩
  intro σ σ1 v k e h
  exact insertOp_nodeCount_mono h

/-- The tree state reached by one successful insert of value 5 into a fresh
degree 3 tree; used by the C8 witness. -/
def c8After : TreeState Nat Nat :=
  match insertOp natCmp genId (NewBTree Nat Nat 3) 5 with
  | some (σ, _, _) => σ
  | none => NewBTree Nat Nat 3

/-- C8 witness: a concrete successful insert for which the monotonicity
conjunct applies. -/
theorem C8_node_count_witness :
    insertOp natCmp genId (NewBTree Nat Nat 3) 5 = some (c8After, some 5, none) ∧
    NodeCountOp (NewBTree Nat Nat 3) ≤ NodeCountOp c8After := by
  constructor
  · rfl
  · exact (C8_node_count_monotone natCmp genId).2.2.1 _ _ _ _ _ rfl

/-- C3: when a node with an existing, roomy parent (or no parent) overflows
and splits, the split point is degree / 2 for a leaf and
degree / 2 + degree % 2 for an internal node; the new sibling (allocated at
the end of the store) is of the same leaf kind as the split node and
receives the keys, and values or children respectively, from the split
point onward, while the split node keeps exactly the prefix before the
split point. -/
theorem C3_split_point_and_content
    (cmp : K → K → Int) (fuel : Nat) (σ : TreeState K V) (nid : Nat)
    (n : Node K V)
    (hget : nth σ.nodes nid = some n)
    (hdeg : 3 ≤ σ.degree)
    (hover : (if n.leaf then σ.degree - 1 else σ.degree) < n.keys.length)
    (hpok : SplitParentOk σ nid n) :
    ∃ σR nF sF,
      splitNode cmp (fuel + 2) σ nid = some σR ∧
      nth σR.nodes nid = some nF ∧
      nth σR.nodes σ.nodes.length = some sF ∧
      sF.leaf = n.leaf ∧
      sF.keys = n.keys.drop
        (if n.leaf then σ.degree / 2 else σ.degree / 2 + σ.degree % 2) ∧
      nF.keys = n.keys.take
        (if n.leaf then σ.degree / 2 else σ.degree / 2 + σ.degree % 2) ∧
      (n.leaf = true → sF.values = n.values.drop (σ.degree / 2) ∧
        nF.values = n.values.take (σ.degree / 2)) ∧
      (n.leaf = false →
        sF.children = n.children.drop (σ.degree / 2 + σ.degree % 2) ∧
        nF.children = n.children.take (σ.degree / 2 + σ.degree % 2)) := by
  have hnid := nth_some_lt hget
  set sp := (if n.leaf then σ.degree / 2 else σ.degree / 2 + σ.degree % 2)
    with hsp
  have hsplt : sp < n.keys.length := by
    rw [hsp]
    cases hl : n.leaf
    all_goals rw [hl] at hover
    all_goals simp at hover ⊢
    all_goals omega
  have hpk : (n.keys.drop sp).head? = some (n.keys.get ⟨sp, hsplt⟩) := by
    rw [head?_drop]
    exact nth_eq_get hsplt
  cases hp : n.parent with
  | none =>
    have heq := splitNode_root_eq cmp (fuel + 1) σ nid n sp _ hget hover hsp
      hpk hp
    refine ⟨_, { truncNode n σ.nodes.length sp with
                   parent := some (σ.nodes.length + 1) },
              { sibNode σ n nid sp with
                   parent := some (σ.nodes.length + 1) },
              heq, ?_, ?_, ?_, ?_, ?_, ?_, ?_⟩
    · dsimp only
      rw [nth_set_ne _ (by omega)]
      exact nth_set_self _ (by
        simp only [List.length_set, List.length_append, List.length_cons,
          List.length_nil]
        omega)
    · dsimp only
      exact nth_set_self _ (by
        simp only [List.length_set, List.length_append, List.length_cons,
          List.length_nil]
        omega)
    · cases hl : n.leaf <;> simp [sibNode, freshNode, hl]
    · cases hl : n.leaf <;> simp [sibNode, freshNode, hl]
    · cases hl : n.leaf <;> simp [truncNode, hl]
    · intro hl
      constructor <;> simp [sibNode, truncNode, freshNode, hl, hsp]
    · intro hl
      constructor <;> simp [sibNode, truncNode, freshNode, hl, hsp]
  | some pid =>
    simp only [SplitParentOk, hp] at hpok
    obtain ⟨hne, pn, hpn, hpleaf, hroom⟩ := hpok
    have hpidlt := nth_some_lt hpn
    have heq := splitNode_parent_eq cmp fuel σ nid n sp _ pid pn hget hover
      hsp hpk hp hpn hne hpleaf hroom
    refine ⟨_, truncNode n σ.nodes.length sp,
              { sibNode σ n nid sp with parent := some pid },
              heq, ?_, ?_, ?_, ?_, ?_, ?_, ?_⟩
    · dsimp only
      rw [nth_set_ne _ hne, nth_set_ne _ (by omega)]
      exact nth_set_self _ (by
        simp only [List.length_set, List.length_append, List.length_cons,
          List.length_nil]
        omega)
    · dsimp only
      rw [nth_set_ne _ (by omega)]
      exact nth_set_self _ (by
        simp only [List.length_set, List.length_append, List.length_cons,
          List.length_nil]
        omega)
    · cases hl : n.leaf <;> simp [sibNode, freshNode, hl]
    · cases hl : n.leaf <;> simp [sibNode, freshNode, hl]
    · cases hl : n.leaf <;> simp [truncNode, hl]
    · intro hl
      constructor <;> simp [sibNode, truncNode, freshNode, hl, hsp]
    · intro hl
      constructor <;> simp [sibNode, truncNode, freshNode, hl, hsp]

/-- A concrete overflowing leaf root: degree 3, three keys. -/
def leafDemoNode : Node Nat Nat :=
  { internalID := 1, dirty := true, leaf := true, keys := [1, 2, 3],
    values := [Sum.inl 1, Sum.inl 2, Sum.inl 3], children := [],
    parent := none, previous := none, next := none }

/-- The tree state holding only the overflowing leaf root. -/
def leafDemoTree : TreeState Nat Nat :=
  { nodeCount := 1, degree := 3, root := 0, dirty := true,
    nodes := [leafDemoNode] }

/-- C3 witness: the split of the concrete overflowing leaf root. -/
theorem C3_split_witness :
    (nth leafDemoTree.nodes 0 = some leafDemoNode ∧
     3 ≤ leafDemoTree.degree ∧
     (if leafDemoNode.leaf then leafDemoTree.degree - 1
      else leafDemoTree.degree) < leafDemoNode.keys.length ∧
     SplitParentOk leafDemoTree 0 leafDemoNode) ∧
    (∃ σR nF sF,
      splitNode natCmp (0 + 2) leafDemoTree 0 = some σR ∧
      nth σR.nodes 0 = some nF ∧
      nth σR.nodes leafDemoTree.nodes.length = some sF ∧
      sF.leaf = leafDemoNode.leaf ∧
      sF.keys = leafDemoNode.keys.drop
        (if leafDemoNode.leaf then leafDemoTree.degree / 2
         else leafDemoTree.degree / 2 + leafDemoTree.degree % 2) ∧
      nF.keys = leafDemoNode.keys.take
        (if leafDemoNode.leaf then leafDemoTree.degree / 2
         else leafDemoTree.degree / 2 + leafDemoTree.degree % 2) ∧
      (leafDemoNode.leaf = true →
        sF.values = leafDemoNode.values.drop (leafDemoTree.degree / 2) ∧
        nF.values = leafDemoNode.values.take (leafDemoTree.degree / 2)) ∧
      (leafDemoNode.leaf = false →
        sF.children = leafDemoNode.children.drop
          (leafDemoTree.degree / 2 + leafDemoTree.degree % 2) ∧
        nF.children = leafDemoNode.children.take
          (leafDemoTree.degree / 2 + leafDemoTree.degree % 2))) := by
  have hpok : SplitParentOk leafDemoTree 0 leafDemoNode := by
    simp [SplitParentOk, leafDemoNode]
  exact ⟨⟨rfl, by decide, by decide, hpok⟩,
    C3_split_point_and_content natCmp 0 leafDemoTree 0 leafDemoNode rfl
      (by decide) (by decide) hpok⟩

/-- C4: after a split of a sorted overflowing node (with a roomy parent or
none), the promoted key equals the first key of the new right sibling,
every key kept in the left node compares strictly below every key of the
sibling, and when the split node was the root a new internal root holds
exactly the promoted key, the children are the old node and the sibling in
that order, and both adopt the new root as parent; when the node had a
parent, the keys of the parent afterwards are a permutation of the promoted
key joined onto its previous keys. -/
theorem C4_promoted_key_and_separation
    (cmp : K → K → Int) (fuel : Nat) (σ : TreeState K V) (nid : Nat)
    (n : Node K V)
    (hget : nth σ.nodes nid = some n)
    (hdeg : 3 ≤ σ.degree)
    (hover : (if n.leaf then σ.degree - 1 else σ.degree) < n.keys.length)
    (hsort : n.keys.Pairwise (fun a b => cmp a b = -1))
    (hpok : SplitParentOk σ nid n) :
    ∃ σR nF sF pk,
      splitNode cmp (fuel + 2) σ nid = some σR ∧
      nth σR.nodes nid = some nF ∧
      nth σR.nodes σ.nodes.length = some sF ∧
      sF.keys.head? = some pk ∧
      (∀ a ∈ nF.keys, ∀ b ∈ sF.keys, cmp a b = -1) ∧
      (n.parent = none →
        σR.root = σ.nodes.length + 1 ∧
        ∃ rF, nth σR.nodes (σ.nodes.length + 1) = some rF ∧
          rF.leaf = false ∧ rF.keys = [pk] ∧
          rF.children = [nid, σ.nodes.length] ∧
          nF.parent = some (σ.nodes.length + 1) ∧
          sF.parent = some (σ.nodes.length + 1)) ∧
      (∀ pid, n.parent = some pid →
        ∃ pn pF, nth σ.nodes pid = some pn ∧ nth σR.nodes pid = some pF ∧
          List.Perm pF.keys (pk :: pn.keys) ∧ sF.parent = some pid) := by
  have hnid := nth_some_lt hget
  set sp := (if n.leaf then σ.degree / 2 else σ.degree / 2 + σ.degree % 2)
    with hsp
  have hsplt : sp < n.keys.length := by
    rw [hsp]
    cases hl : n.leaf
    all_goals rw [hl] at hover
    all_goals simp at hover ⊢
    all_goals omega
  have hpk : (n.keys.drop sp).head? = some (n.keys.get ⟨sp, hsplt⟩) := by
    rw [head?_drop]
    exact nth_eq_get hsplt
  have hsep := pairwise_take_drop hsort sp
  cases hp : n.parent with
  | none =>
    have heq := splitNode_root_eq cmp (fuel + 1) σ nid n sp _ hget hover hsp
      hpk hp
    refine ⟨_, { truncNode n σ.nodes.length sp with
                   parent := some (σ.nodes.length + 1) },
              { sibNode σ n nid sp with
                   parent := some (σ.nodes.length + 1) },
              n.keys.get ⟨sp, hsplt⟩,
              heq, ?_, ?_, ?_, ?_, ?_, ?_⟩
    · dsimp only
      rw [nth_set_ne _ (by omega)]
      exact nth_set_self _ (by
        simp only [List.length_set, List.length_append, List.length_cons,
          List.length_nil]
        omega)
    · dsimp only
      exact nth_set_self _ (by
        simp only [List.length_set, List.length_append, List.length_cons,
          List.length_nil]
        omega)
    · have : ({ sibNode σ n nid sp with
                  parent := some (σ.nodes.length + 1) } : Node K V).keys
          = n.keys.drop sp := by
        cases hl : n.leaf <;> simp [sibNode, freshNode, hl]
      rw [this, head?_drop]
      exact nth_eq_get hsplt
    · intro a ha b hb
      have hka : ({ truncNode n σ.nodes.length sp with
                      parent := some (σ.nodes.length + 1) } : Node K V).keys
          = n.keys.take sp := by
        cases hl : n.leaf <;> simp [truncNode, hl]
      have hkb : ({ sibNode σ n nid sp with
                      parent := some (σ.nodes.length + 1) } : Node K V).keys
          = n.keys.drop sp := by
        cases hl : n.leaf <;> simp [sibNode, freshNode, hl]
      rw [hka] at ha
      rw [hkb] at hb
      exact hsep a ha b hb
    · intro _
      refine ⟨rfl, { freshNode K V (σ.nodeCount + 2) false with
                       keys := [n.keys.get ⟨sp, hsplt⟩],
                       children := [nid, σ.nodes.length] },
                ?_, by simp [freshNode], rfl, rfl, rfl, rfl⟩
      dsimp only
      rw [nth_set_ne _ (by omega), nth_set_ne _ (by omega)]
      exact nth_set_self _ (by
        simp only [List.length_set, List.length_append, List.length_cons,
          List.length_nil]
        omega)
    · intro pid hcon
      exact Option.noConfusion hcon
  | some pid =>
    simp only [SplitParentOk, hp] at hpok
    obtain ⟨hne, pn, hpn, hpleaf, hroom⟩ := hpok
    have hpidlt := nth_some_lt hpn
    have heq := splitNode_parent_eq cmp fuel σ nid n sp _ pid pn hget hover
      hsp hpk hp hpn hne hpleaf hroom
    refine ⟨_, truncNode n σ.nodes.length sp,
              { sibNode σ n nid sp with parent := some pid },
              n.keys.get ⟨sp, hsplt⟩,
              heq, ?_, ?_, ?_, ?_, ?_, ?_⟩
    · dsimp only
      rw [nth_set_ne _ hne, nth_set_ne _ (by omega)]
      exact nth_set_self _ (by
        simp only [List.length_set, List.length_append, List.length_cons,
          List.length_nil]
        omega)
    · dsimp only
      rw [nth_set_ne _ (by omega)]
      exact nth_set_self _ (by
        simp only [List.length_set, List.length_append, List.length_cons,
          List.length_nil]
        omega)
    · have : ({ sibNode σ n nid sp with parent := some pid } : Node K V).keys
          = n.keys.drop sp := by
        cases hl : n.leaf <;> simp [sibNode, freshNode, hl]
      rw [this, head?_drop]
      exact nth_eq_get hsplt
    · intro a ha b hb
      have hka : (truncNode n σ.nodes.length sp).keys = n.keys.take sp := by
        cases hl : n.leaf <;> simp [truncNode, hl]
      have hkb : ({ sibNode σ n nid sp with
                      parent := some pid } : Node K V).keys
          = n.keys.drop sp := by
        cases hl : n.leaf <;> simp [sibNode, freshNode, hl]
      rw [hka] at ha
      rw [hkb] at hb
      exact hsep a ha b hb
    · intro hcon
      exact Option.noConfusion hcon
    · intro pid2 hpid2
      injection hpid2 with hpid2
      subst hpid2
      refine ⟨pn,
        { pn with
            keys := rvInsert
              (findIdxA (fun k => cmp (n.keys.get ⟨sp, hsplt⟩) k == -1) pn.keys)
              (n.keys.get ⟨sp, hsplt⟩) pn.keys,
            children := rvInsert
              (findIdxA (fun k => cmp (n.keys.get ⟨sp, hsplt⟩) k == -1) pn.keys)
              σ.nodes.length pn.children },
        hpn, ?_, ?_, rfl⟩
      · dsimp only
        exact nth_set_self _ (by
          simp only [List.length_set, List.length_append, List.length_cons,
            List.length_nil]
          omega)
      · exact rvInsert_perm _ _ _

/-- C4 witness: the root split of the concrete overflowing leaf root. -/
theorem C4_split_witness :
    (nth leafDemoTree.nodes 0 = some leafDemoNode ∧
     3 ≤ leafDemoTree.degree ∧
     (if leafDemoNode.leaf then leafDemoTree.degree - 1
      else leafDemoTree.degree) < leafDemoNode.keys.length ∧
     leafDemoNode.keys.Pairwise (fun a b => natCmp a b = -1) ∧
     SplitParentOk leafDemoTree 0 leafDemoNode) ∧
    (∃ σR nF sF pk,
      splitNode natCmp (0 + 2) leafDemoTree 0 = some σR ∧
      nth σR.nodes 0 = some nF ∧
      nth σR.nodes leafDemoTree.nodes.length = some sF ∧
      sF.keys.head? = some pk ∧
      (∀ a ∈ nF.keys, ∀ b ∈ sF.keys, natCmp a b = -1) ∧
      (leafDemoNode.parent = none →
        σR.root = leafDemoTree.nodes.length + 1 ∧
        ∃ rF, nth σR.nodes (leafDemoTree.nodes.length + 1) = some rF ∧
          rF.leaf = false ∧ rF.keys = [pk] ∧
          rF.children = [0, leafDemoTree.nodes.length] ∧
          nF.parent = some (leafDemoTree.nodes.length + 1) ∧
          sF.parent = some (leafDemoTree.nodes.length + 1)) ∧
      (∀ pid, leafDemoNode.parent = some pid →
        ∃ pn pF, nth leafDemoTree.nodes pid = some pn ∧
          nth σR.nodes pid = some pF ∧
          List.Perm pF.keys (pk :: pn.keys) ∧ sF.parent = some pid)) := by
  have hpok : SplitParentOk leafDemoTree 0 leafDemoNode := by
    simp [SplitParentOk, leafDemoNode]
  exact ⟨⟨rfl, by decide, by decide, by decide, hpok⟩,
    C4_promoted_key_and_separation natCmp 0 leafDemoTree 0 leafDemoNode rfl
      (by decide) (by decide) (by decide) hpok⟩

/-- The position recordValue inserts a key at: the index of the first
strictly greater key, or the key count when no key is greater. -/
def insPos (cmp : K → K → Int) (key : K) (ks : List K) : Nat :=
  (findIdxA (fun k => cmp key k == -1) ks).getD ks.length

theorem insPos_le (cmp : K → K → Int) (key : K) (ks : List K) :
    insPos cmp key ks ≤ ks.length := by
  unfold insPos
  cases hfi : findIdxA (fun k => cmp key k == -1) ks with
  | none => simp
  | some j =>
    obtain ⟨⟨a, ha, _⟩, _⟩ := findIdxA_some_nth hfi
    simpa using Nat.le_of_lt (nth_some_lt ha)

theorem rvInsert_eq_insertAt_len {l2 : List β} (p : α → Bool) (x : β)
    (l : List α) (hlen : l2.length = l.length) :
    rvInsert (findIdxA p l) x l2 =
      insertAt ((findIdxA p l).getD l.length) x l2 := by
  cases hfi : findIdxA p l with
  | none =>
    simp only [rvInsert, Option.getD_none, ← hlen, insertAt_length_append]
  | some j => rfl

/-- C6 amended: recording a key which compares equal to a key already in
the target leaf places it at the first strictly greater position, which is
after every existing equal key; the left to right scan of the search
therefore still finds the earliest recorded equal entry, whose value is
unchanged. -/
theorem C6_duplicate_inserted_after_equals
    (cmp : K → K → Int) (σ : TreeState K V) (nid : Nat) (n : Node K V)
    (key : K) (val : V ⊕ Nat)
    (hget : nth σ.nodes nid = some n)
    (hleaf : n.leaf = true)
    (hlen : n.values.length = n.keys.length)
    (hpair : n.keys.Pairwise (fun a b => cmp key a = -1 → cmp key b ≠ 0))
    (hdup : ∃ j b, nth n.keys j = some b ∧ cmp key b = 0) :
    ∃ n1,
      recordEntry cmp σ key val nid =
        some { σ with nodes := σ.nodes.set nid n1 } ∧
      n1.keys = insertAt (insPos cmp key n.keys) key n.keys ∧
      n1.values = insertAt (insPos cmp key n.keys) val n.values ∧
      (∀ j b, nth n.keys j = some b → cmp key b = 0 →
        j < insPos cmp key n.keys) ∧
      leafLookup cmp key n1 = leafLookup cmp key n := by
  have hbefore : ∀ j b, nth n.keys j = some b → cmp key b = 0 →
      j < insPos cmp key n.keys := by
    intro j b hb hq
    unfold insPos
    cases hfi : findIdxA (fun k => cmp key k == -1) n.keys with
    | none => simpa using nth_some_lt hb
    | some i =>
      simp only [Option.getD_some]
      by_contra hcon
      push_neg at hcon
      obtain ⟨⟨a, ha, hpa⟩, _⟩ := findIdxA_some_nth hfi
      have hpa2 : cmp key a = -1 := eq_of_beq hpa
      rcases Nat.eq_or_lt_of_le hcon with heq2 | hlt2
      · subst heq2
        rw [ha] at hb
        injection hb with hb
        subst hb
        rw [hpa2] at hq
        exact absurd hq (by decide)
      · have hi := nth_some_lt ha
        have hj := nth_some_lt hb
        have hpg := (List.pairwise_iff_get.mp hpair) ⟨i, hi⟩ ⟨j, hj⟩ hlt2
        have ha2 : n.keys.get ⟨i, hi⟩ = a := by
          have := nth_eq_get hi
          rw [ha] at this
          injection this with this
          exact this.symm
        have hb2 : n.keys.get ⟨j, hj⟩ = b := by
          have := nth_eq_get hj
          rw [hb] at this
          injection this with this
          exact this.symm
        rw [ha2, hb2] at hpg
        exact hpg hpa2 hq
  refine ⟨{ n with
      keys := rvInsert (findIdxA (fun k => cmp key k == -1) n.keys)
                key n.keys,
      values := rvInsert (findIdxA (fun k => cmp key k == -1) n.keys)
                val n.values },
    ?_, ?_, ?_, hbefore, ?_⟩
  · simp only [recordEntry, hget, hleaf, if_true]
  · simp only [insPos]
    exact rvInsert_eq_insertAt_len _ _ _ rfl
  · simp only [insPos]
    exact rvInsert_eq_insertAt_len _ _ _ hlen
  · obtain ⟨jd, bd, hjd, hqd⟩ := hdup
    have hle := insPos_le cmp key n.keys
    have hlev : insPos cmp key n.keys ≤ n.values.length := by
      rw [hlen]
      exact hle
    cases hq0 : findIdxA (fun k => cmp key k == 0) n.keys with
    | none =>
      have := findIdxA_none_nth hq0 jd bd hjd
      simp [hqd] at this
    | some j0 =>
      obtain ⟨⟨b0, hb0, hqb0⟩, hmin0⟩ := findIdxA_some_nth hq0
      have hj0lt : j0 < insPos cmp key n.keys :=
        hbefore j0 b0 hb0 (eq_of_beq hqb0)
      have hfind1 :
          findIdxA (fun k => cmp key k == 0)
            (insertAt (insPos cmp key n.keys) key n.keys) = some j0 := by
        apply findIdxA_first b0
        · rw [nth_insertAt_lt _ hj0lt hle]
          exact hb0
        · exact hqb0
        · intro m hm c hc
          rw [nth_insertAt_lt _ (Nat.lt_trans hm hj0lt) hle] at hc
          exact hmin0 m hm c hc
      have hkeys1 :
          rvInsert (findIdxA (fun k => cmp key k == -1) n.keys) key n.keys =
            insertAt (insPos cmp key n.keys) key n.keys := by
        simp only [insPos]
        exact rvInsert_eq_insertAt_len _ _ _ rfl
      have hvals1 :
          rvInsert (findIdxA (fun k => cmp key k == -1) n.keys) val n.values =
            insertAt (insPos cmp key n.keys) val n.values := by
        simp only [insPos]
        exact rvInsert_eq_insertAt_len _ _ _ hlen
      simp only [leafLookup, hkeys1, hvals1, hfind1, hq0,
        nth_insertAt_lt _ hj0lt hlev]

/-- A concrete leaf with room, holding key 5 (value 51) and key 7
(value 52); used by the C6 witness. -/
def dupDemoNode : Node Nat Nat :=
  { internalID := 1, dirty := true, leaf := true, keys := [5, 7],
    values := [Sum.inl 51, Sum.inl 52], children := [], parent := none,
    previous := none, next := none }

/-- The tree state holding only that leaf. -/
def dupDemoTree : TreeState Nat Nat :=
  { nodeCount := 1, degree := 4, root := 0, dirty := true,
    nodes := [dupDemoNode] }

/-- C6 witness: recording the duplicate key 5 with a new value into the
concrete leaf. -/
theorem C6_duplicate_witness :
    (nth dupDemoTree.nodes 0 = some dupDemoNode ∧
     dupDemoNode.leaf = true ∧
     dupDemoNode.values.length = dupDemoNode.keys.length ∧
     dupDemoNode.keys.Pairwise
       (fun a b => natCmp 5 a = -1 → natCmp 5 b ≠ 0) ∧
     (∃ j b, nth dupDemoNode.keys j = some b ∧ natCmp 5 b = 0)) ∧
    (∃ n1,
      recordEntry natCmp dupDemoTree 5 (Sum.inl 53) 0 =
        some { dupDemoTree with nodes := dupDemoTree.nodes.set 0 n1 } ∧
      n1.keys = insertAt (insPos natCmp 5 dupDemoNode.keys) 5
        dupDemoNode.keys ∧
      n1.values = insertAt (insPos natCmp 5 dupDemoNode.keys) (Sum.inl 53)
        dupDemoNode.values ∧
      (∀ j b, nth dupDemoNode.keys j = some b → natCmp 5 b = 0 →
        j < insPos natCmp 5 dupDemoNode.keys) ∧
      leafLookup natCmp 5 n1 = leafLookup natCmp 5 dupDemoNode) := by
  refine ⟨⟨rfl, rfl, rfl, by decide, ⟨0, 5, rfl, by decide⟩⟩,
    C6_duplicate_inserted_after_equals natCmp dupDemoTree 0 dupDemoNode 5
      (Sum.inl 53) rfl rfl rfl (by decide) ⟨0, 5, rfl, by decide⟩⟩
